import Mathlib

/-!
# Verification of the PistachioMCP task-admission core

Shallow embedding of the two components of the task-admission layer:

* `TaskQueue` (from `TaskQueueUtils.ts`): a bounded-concurrency admission
  controller with per-project mutual exclusion, driven by enqueue and
  task-completion events on the JS event loop.
* the device locks: the in-process `withDeviceLock` polling lock
  (`DeviceLockUtils.ts`) and the cross-process `mkdir`-based lock with
  stale-owner detection used by the `run-android-test` skill script.

The JS event loop is single threaded, so each synchronous slice of the
source (one `processQueue` run, one poll-loop iteration) is one atomic
step of the embedded transition systems.
-/

namespace PistachioMCP

/-! ## Association-list model of the JS `Map` -/

/-- Model of Map.get: value of the first entry with the given key. -/
def mapGet {α : Type} (m : List (String × α)) (k : String) : Option α :=
  match m with
  | [] => none
  | (k', v) :: r => if k' = k then some v else mapGet r k

/-- Model of Map.set: replace the value at the key if present, else append the entry. -/
def mapSet {α : Type} (m : List (String × α)) (k : String) (v : α) : List (String × α) :=
  match m with
  | [] => [(k, v)]
  | (k', v') :: r => if k' = k then (k, v) :: r else (k', v') :: mapSet r k v

/-- Model of Map.delete: remove the entry with the given key. -/
def mapDelete {α : Type} (m : List (String × α)) (k : String) : List (String × α) :=
  m.filter (fun kv => kv.1 ≠ k)

/-! ## TaskQueue (TaskQueueUtils.ts)

A queued task is identified by a label `id` (a ghost name used to speak
about a particular enqueue call); `projectId` is the optional grouping
key from the source.  The executor supplied at enqueue time is abstracted
by its synchronous behaviour: `throwsSync = false` means it returns a
promise (whose eventual settlement is a separate `complete` event);
`throwsSync = true` means calling it throws synchronously. -/

structure QueuedTask where
  id : Nat
  projectId : Option String
  throwsSync : Bool
  deriving Repr, DecidableEq

/-- State of a `TaskQueue` instance.  `queue`, `activeWorkers`,
`activeTasksByProject` and `maxWorkers` are the fields of the source
class.  The remaining fields are observations of the executor lifecycle:
`running` holds admitted tasks whose promise has not settled, `started`
records executor invocations in order, `settled` records each delivery of
an outcome through a caller's promise (`true` = resolved), and `leaked`
holds admitted tasks whose executor threw synchronously, so that their
`.finally` bookkeeping was never attached and their worker slot is never
freed. -/
structure TaskQueue where
  maxWorkers : Nat
  queue : List QueuedTask
  activeWorkers : Nat
  activeTasksByProject : List (String × Nat)
  running : List QueuedTask
  started : List Nat
  settled : List (Nat × Bool)
  leaked : List QueuedTask
  deriving Repr, DecidableEq

/-- The freshly constructed queue (all fields empty). -/
def TaskQueue.init (maxWorkers : Nat) : TaskQueue :=
  { maxWorkers := maxWorkers
    queue := []
    activeWorkers := 0
    activeTasksByProject := []
    running := []
    started := []
    settled := []
    leaked := [] }

/-- The constructor check: `maxWorkers < 1` throws a configuration error. -/
def TaskQueue.create (maxWorkers : Nat) : Except String TaskQueue :=
  if maxWorkers < 1 then .error "maxWorkers must be at least 1"
  else .ok (TaskQueue.init maxWorkers)

/-- The eligibility test of the `processQueue` scan: a task without a
projectId can always run; a task with a projectId can run only if that
project has no active tasks. -/
def eligibleTask (m : List (String × Nat)) (t : QueuedTask) : Bool :=
  match t.projectId with
  | none => true
  | some p => (mapGet m p).getD 0 == 0

/-- The scan-and-splice of `processQueue`: find the first eligible task,
return it together with the queue with that task spliced out. -/
def extractEligible (m : List (String × Nat)) :
    List QueuedTask → Option (QueuedTask × List QueuedTask)
  | [] => none
  | t :: rest =>
    if eligibleTask m t then some (t, rest)
    else
      match extractEligible m rest with
      | some (u, rest') => some (u, t :: rest')
      | none => none

/-- The admission-side counter update: if the task has a project id,
increment the active count for that project. -/
def admitProjectCount (m : List (String × Nat)) : Option String → List (String × Nat)
  | none => m
  | some p => mapSet m p ((mapGet m p).getD 0 + 1)

/-- The completion-side counter update (the `.finally` handler): if the
task has a project id, decrement the active count for that project,
deleting the entry when the count would reach zero. -/
def completeProjectCount (m : List (String × Nat)) : Option String → List (String × Nat)
  | none => m
  | some p =>
    let c := (mapGet m p).getD 0
    if c ≤ 1 then mapDelete m p else mapSet m p (c - 1)

/-- One admission: splice the task out of the queue, increment
`activeWorkers`, increment the project counter if grouped, and invoke the
executor (recorded in `started`). -/
def TaskQueue.admitTask (s : TaskQueue) (t : QueuedTask) (rest : List QueuedTask) : TaskQueue :=
  { s with
    queue := rest
    activeWorkers := s.activeWorkers + 1
    activeTasksByProject := admitProjectCount s.activeTasksByProject t.projectId
    started := s.started ++ [t.id] }

/-- The `while` loop of `processQueue`.  The fuel argument bounds the
number of iterations; `processQueue` supplies `queue.length`, which is
enough because every iteration removes one task from the queue.  The
second component is `some id` when the executor of the admitted task `id`
threw synchronously: the exception aborts the loop and propagates to the
caller of `processQueue`. -/
def processQueueAux : TaskQueue → Nat → TaskQueue × Option Nat
  | s, 0 => (s, none)
  | s, fuel + 1 =>
    if s.activeWorkers < s.maxWorkers then
      match extractEligible s.activeTasksByProject s.queue with
      | none => (s, none)
      | some (t, rest) =>
        if t.throwsSync then
          ({ s.admitTask t rest with leaked := s.leaked ++ [t] }, some t.id)
        else
          processQueueAux { s.admitTask t rest with running := s.running ++ [t] } fuel
    else (s, none)

/-- The processQueue entry point: run the admission loop to its fixpoint (or to the
first synchronous throw). -/
def TaskQueue.processQueue (s : TaskQueue) : TaskQueue × Option Nat :=
  processQueueAux s s.queue.length

/-- The enqueue method: push the task and trigger `processQueue` from inside the
`new Promise` executor.  A synchronous throw escaping `processQueue` is
caught by the promise constructor and rejects the promise returned for
the task being enqueued. -/
def TaskQueue.enqueue (s : TaskQueue) (t : QueuedTask) : TaskQueue :=
  match TaskQueue.processQueue { s with queue := s.queue ++ [t] } with
  | (s1, none) => s1
  | (s1, some _) => { s1 with settled := s1.settled ++ [(t.id, false)] }

/-- Remove the first list element satisfying the predicate (the
`splice`-style removal used when a running task settles). -/
def removeFirst (p : QueuedTask → Bool) : List QueuedTask → List QueuedTask
  | [] => []
  | t :: r => if p t then r else t :: removeFirst p r

/-- Settlement of a running task's promise (`ok = true` for resolution):
the `.then`/`.catch` handler delivers the outcome, then the `.finally`
handler decrements `activeWorkers`, decrements or deletes the project
counter, and re-runs `processQueue`.  A synchronous throw from an
executor admitted during this `processQueue` run escapes into the promise
reaction and becomes an unhandled rejection: no promise is settled by it.
A `complete` event for an id not currently running is a no-op. -/
def TaskQueue.complete (s : TaskQueue) (id : Nat) (ok : Bool) : TaskQueue :=
  match s.running.find? (fun t => t.id == id) with
  | none => s
  | some t =>
    let s1 : TaskQueue :=
      { s with
        running := removeFirst (fun u => u.id == id) s.running
        settled := s.settled ++ [(id, ok)]
        activeWorkers := s.activeWorkers - 1
        activeTasksByProject := completeProjectCount s.activeTasksByProject t.projectId }
    (TaskQueue.processQueue s1).1

/-- Observable events of a queue's life: an `enqueue` call, or the
settlement of a running task's executor promise. -/
inductive QEvent where
  | enqueue (t : QueuedTask)
  | complete (id : Nat) (ok : Bool)
  deriving Repr, DecidableEq

/-- One event step. -/
def TaskQueue.step (s : TaskQueue) : QEvent → TaskQueue
  | .enqueue t => s.enqueue t
  | .complete id ok => s.complete id ok

/-- The queue state reached from a fresh queue of the given capacity by a
sequence of events. -/
def TaskQueue.run (maxWorkers : Nat) (evs : List QEvent) : TaskQueue :=
  evs.foldl TaskQueue.step (TaskQueue.init maxWorkers)

/-- Accessor `getActiveWorkers`. -/
def TaskQueue.getActiveWorkers (s : TaskQueue) : Nat := s.activeWorkers

/-- Accessor `getQueueLength`. -/
def TaskQueue.getQueueLength (s : TaskQueue) : Nat := s.queue.length

/-- Accessor `getMaxWorkers`. -/
def TaskQueue.getMaxWorkers (s : TaskQueue) : Nat := s.maxWorkers

/-- Accessor `getActiveTasksByProject` (returns a copy). -/
def TaskQueue.getActiveTasksByProject (s : TaskQueue) : List (String × Nat) :=
  s.activeTasksByProject

/-! ## Lemmas about the association-list map -/

theorem mapGet_mapSet_self {α : Type} (m : List (String × α)) (k : String) (v : α) :
    mapGet (mapSet m k v) k = some v := by
  induction m with
  | nil => simp [mapSet, mapGet]
  | cons kv r ih =>
    obtain ⟨k', v'⟩ := kv
    by_cases h : k' = k
    · simp [mapSet, h, mapGet]
    · simp [mapSet, h, mapGet, ih]

theorem mapGet_mapSet_ne {α : Type} (m : List (String × α)) (k q : String) (v : α)
    (h : q ≠ k) : mapGet (mapSet m k v) q = mapGet m q := by
  have hkq : ¬k = q := fun hh => h hh.symm
  induction m with
  | nil => simp [mapSet, mapGet, hkq]
  | cons kv r ih =>
    obtain ⟨k', v'⟩ := kv
    by_cases hk : k' = k
    · subst hk
      simp [mapSet, mapGet, hkq]
    · simp only [mapSet, if_neg hk, mapGet]
      by_cases hq : k' = q
      · simp [hq]
      · simp [hq, ih]

theorem mapGet_mapDelete_self {α : Type} (m : List (String × α)) (k : String) :
    mapGet (mapDelete m k) k = none := by
  induction m with
  | nil => simp [mapDelete, mapGet]
  | cons kv r ih =>
    obtain ⟨k', v'⟩ := kv
    by_cases h : k' = k
    · simpa [mapDelete, h] using ih
    · simpa [mapDelete, mapGet, h] using ih

theorem mapGet_mapDelete_ne {α : Type} (m : List (String × α)) (k q : String)
    (h : q ≠ k) : mapGet (mapDelete m k) q = mapGet m q := by
  induction m with
  | nil => simp [mapDelete, mapGet]
  | cons kv r ih =>
    obtain ⟨k', v'⟩ := kv
    by_cases hk : k' = k
    · subst hk
      have hne : ¬k' = q := fun hh => h hh.symm
      simpa [mapDelete, mapGet, hne] using ih
    · by_cases hq : k' = q
      · subst hq
        simp [mapDelete, mapGet, hk, h]
      · simpa [mapDelete, mapGet, hk, hq] using ih

theorem mem_mapSet {α : Type} {m : List (String × α)} {k : String} {v : α}
    {e : String × α} (h : e ∈ mapSet m k v) : e = (k, v) ∨ e ∈ m := by
  induction m with
  | nil => simpa [mapSet] using h
  | cons kv r ih =>
    obtain ⟨k', v'⟩ := kv
    by_cases hk : k' = k
    · simp only [mapSet, if_pos hk, List.mem_cons] at h
      rcases h with h | h
      · exact Or.inl h
      · exact Or.inr (List.mem_cons_of_mem _ h)
    · simp only [mapSet, if_neg hk, List.mem_cons] at h
      rcases h with h | h
      · exact Or.inr (by simp [h])
      · rcases ih h with h' | h'
        · exact Or.inl h'
        · exact Or.inr (List.mem_cons_of_mem _ h')

theorem mem_mapDelete {α : Type} {m : List (String × α)} {k : String}
    {e : String × α} (h : e ∈ mapDelete m k) : e ∈ m :=
  List.mem_of_mem_filter h

theorem mapGet_mem {α : Type} {m : List (String × α)} {k : String} {v : α}
    (h : mapGet m k = some v) : (k, v) ∈ m := by
  induction m with
  | nil => simp [mapGet] at h
  | cons kv r ih =>
    obtain ⟨k', v'⟩ := kv
    by_cases hk : k' = k
    · subst hk
      simp [mapGet] at h
      simp [h]
    · simp only [mapGet, if_neg hk] at h
      exact List.mem_cons_of_mem _ (ih h)

/-! ## Lemmas about the processQueue scan -/

theorem extractEligible_eligible {m : List (String × Nat)} {q : List QueuedTask}
    {t : QueuedTask} {rest : List QueuedTask}
    (h : extractEligible m q = some (t, rest)) : eligibleTask m t = true := by
  induction q generalizing t rest with
  | nil => simp [extractEligible] at h
  | cons a r ih =>
    by_cases ha : eligibleTask m a
    · simp only [extractEligible, if_pos ha, Option.some.injEq, Prod.mk.injEq] at h
      exact h.1 ▸ ha
    · cases hr : extractEligible m r with
      | none => simp [extractEligible, ha, hr] at h
      | some pr =>
        obtain ⟨u, rest'⟩ := pr
        simp only [extractEligible, if_neg ha, hr, Option.some.injEq, Prod.mk.injEq] at h
        exact h.1 ▸ ih hr

theorem extractEligible_mem {m : List (String × Nat)} {q : List QueuedTask}
    {t : QueuedTask} {rest : List QueuedTask}
    (h : extractEligible m q = some (t, rest)) : t ∈ q := by
  induction q generalizing t rest with
  | nil => simp [extractEligible] at h
  | cons a r ih =>
    by_cases ha : eligibleTask m a
    · simp only [extractEligible, if_pos ha, Option.some.injEq, Prod.mk.injEq] at h
      simp [h.1.symm]
    · cases hr : extractEligible m r with
      | none => simp [extractEligible, ha, hr] at h
      | some pr =>
        obtain ⟨u, rest'⟩ := pr
        simp only [extractEligible, if_neg ha, hr, Option.some.injEq, Prod.mk.injEq] at h
        rw [h.1] at hr
        exact List.mem_cons_of_mem _ (ih hr)

theorem extractEligible_subset {m : List (String × Nat)} {q : List QueuedTask}
    {t : QueuedTask} {rest : List QueuedTask}
    (h : extractEligible m q = some (t, rest)) : ∀ u ∈ rest, u ∈ q := by
  induction q generalizing t rest with
  | nil => simp [extractEligible] at h
  | cons a r ih =>
    by_cases ha : eligibleTask m a
    · simp only [extractEligible, if_pos ha, Option.some.injEq, Prod.mk.injEq] at h
      intro u hu
      exact List.mem_cons_of_mem _ (h.2 ▸ hu)
    · cases hr : extractEligible m r with
      | none => simp [extractEligible, ha, hr] at h
      | some pr =>
        obtain ⟨u', rest'⟩ := pr
        simp only [extractEligible, if_neg ha, hr, Option.some.injEq, Prod.mk.injEq] at h
        intro u hu
        rw [← h.2] at hu
        rcases List.mem_cons.mp hu with hu | hu
        · simp [hu]
        · rw [h.1] at hr
          exact List.mem_cons_of_mem _ (ih hr u hu)

theorem extractEligible_length {m : List (String × Nat)} {q : List QueuedTask}
    {t : QueuedTask} {rest : List QueuedTask}
    (h : extractEligible m q = some (t, rest)) : q.length = rest.length + 1 := by
  induction q generalizing t rest with
  | nil => simp [extractEligible] at h
  | cons a r ih =>
    by_cases ha : eligibleTask m a
    · simp only [extractEligible, if_pos ha, Option.some.injEq, Prod.mk.injEq] at h
      simp [← h.2]
    · cases hr : extractEligible m r with
      | none => simp [extractEligible, ha, hr] at h
      | some pr =>
        obtain ⟨u', rest'⟩ := pr
        simp only [extractEligible, if_neg ha, hr, Option.some.injEq, Prod.mk.injEq] at h
        rw [← h.2]
        rw [h.1] at hr
        simp [ih hr]

theorem extractEligible_none_all {m : List (String × Nat)} {q : List QueuedTask}
    (h : extractEligible m q = none) : ∀ t ∈ q, eligibleTask m t = false := by
  induction q with
  | nil => simp
  | cons a r ih =>
    by_cases ha : eligibleTask m a
    · simp [extractEligible, ha] at h
    · intro t ht
      cases hr : extractEligible m r with
      | none =>
        rcases List.mem_cons.mp ht with ht | ht
        · simpa [ht] using ha
        · exact ih hr t ht
      | some pr =>
        obtain ⟨u', rest'⟩ := pr
        simp [extractEligible, ha, hr] at h

/-! ## The TaskQueue bookkeeping invariant -/

/-- Number of tasks of the given project in a list of tasks. -/
def countProject (p : String) (l : List QueuedTask) : Nat :=
  l.countP (fun t => t.projectId == some p)

/-- Every entry of the active-tasks-by-project map has count exactly 1. -/
def entriesOne (m : List (String × Nat)) : Prop :=
  ∀ e ∈ m, e.2 = 1

/-- The map value of each project equals the number of admitted,
unsettled tasks of that project (running, or leaked by a synchronous
executor throw). -/
def counterOk (s : TaskQueue) : Prop :=
  ∀ p : String,
    countProject p (s.running ++ s.leaked) = (mapGet s.activeTasksByProject p).getD 0

/-- Bookkeeping invariant of reachable TaskQueue states. -/
def QInv (s : TaskQueue) : Prop :=
  s.activeWorkers ≤ s.maxWorkers ∧ entriesOne s.activeTasksByProject ∧ counterOk s

theorem countProject_append (p : String) (l₁ l₂ : List QueuedTask) :
    countProject p (l₁ ++ l₂) = countProject p l₁ + countProject p l₂ := by
  simp [countProject, List.countP_append]

theorem countProject_single_none {t : QueuedTask} (h : t.projectId = none)
    (p : String) : countProject p [t] = 0 := by
  simp [countProject, List.countP_cons, h]

theorem countProject_single_self {t : QueuedTask} {p : String}
    (h : t.projectId = some p) : countProject p [t] = 1 := by
  simp [countProject, List.countP_cons, h]

theorem countProject_single_ne {t : QueuedTask} {q : String}
    (h : t.projectId = some q) {p : String} (hne : q ≠ p) :
    countProject p [t] = 0 := by
  simp [countProject, List.countP_cons, h, hne]

theorem eligible_some_zero {m : List (String × Nat)} {t : QueuedTask} {p : String}
    (hp : t.projectId = some p) (h : eligibleTask m t = true) :
    (mapGet m p).getD 0 = 0 := by
  simpa [eligibleTask, hp] using h

theorem getD_le_one {m : List (String × Nat)} (he : entriesOne m) (p : String) :
    (mapGet m p).getD 0 ≤ 1 := by
  cases hm : mapGet m p with
  | none => simp
  | some v =>
    have := he _ (mapGet_mem hm)
    simp only at this
    simp [this]

theorem entriesOne_admitCount {m : List (String × Nat)} {pid : Option String}
    (he : entriesOne m)
    (hz : ∀ p, pid = some p → (mapGet m p).getD 0 = 0) :
    entriesOne (admitProjectCount m pid) := by
  cases pid with
  | none => exact he
  | some p =>
    intro e hme
    have h0 := hz p rfl
    rw [admitProjectCount, h0] at hme
    rcases mem_mapSet hme with h | h
    · simp [h]
    · exact he e h

theorem counter_admitCount {m : List (String × Nat)} {t : QueuedTask}
    (helig : eligibleTask m t = true) (p : String) :
    (mapGet m p).getD 0 + countProject p [t]
      = (mapGet (admitProjectCount m t.projectId) p).getD 0 := by
  cases hpid : t.projectId with
  | none => simp [admitProjectCount, countProject_single_none hpid]
  | some q =>
    by_cases hqp : q = p
    · subst hqp
      have h0 := eligible_some_zero hpid helig
      simp [admitProjectCount, countProject_single_self hpid, h0,
        mapGet_mapSet_self]
    · have hne : p ≠ q := fun hh => hqp hh.symm
      simp [admitProjectCount, countProject_single_ne hpid hqp,
        mapGet_mapSet_ne _ _ _ _ hne]

theorem entriesOne_complete {m : List (String × Nat)} {pid : Option String}
    (he : entriesOne m) : entriesOne (completeProjectCount m pid) := by
  cases pid with
  | none => exact he
  | some p =>
    have hle := getD_le_one he p
    intro e hme
    rw [completeProjectCount] at hme
    simp only [if_pos hle] at hme
    exact he e (mem_mapDelete hme)

theorem countP_removeFirst {pr : QueuedTask → Bool} {l : List QueuedTask}
    {a : QueuedTask} (h : l.find? pr = some a) (q : QueuedTask → Bool) :
    (removeFirst pr l).countP q + (if q a then 1 else 0) = l.countP q := by
  induction l with
  | nil => simp [List.find?] at h
  | cons b r ih =>
    by_cases hb : pr b
    · rw [List.find?_cons_of_pos _ hb] at h
      have hab : b = a := by simpa using h
      subst hab
      simp [removeFirst, hb, List.countP_cons]
    · rw [List.find?_cons_of_neg _ hb] at h
      have := ih h
      simp only [removeFirst, if_neg hb, List.countP_cons]
      omega

/-- A task found in the running list by id really has that id. -/
theorem find?_id_eq {l : List QueuedTask} {id : Nat} {t : QueuedTask}
    (h : l.find? (fun u => u.id == id) = some t) : t.id = id := by
  have := List.find?_some h
  simpa using this

/-- The state after admitting `t` and placing it in `running` (a
promise-returning executor) satisfies the invariant. -/
theorem QInv_admit_running {s : TaskQueue} {t : QueuedTask} {rest : List QueuedTask}
    (hlt : s.activeWorkers < s.maxWorkers)
    (he : entriesOne s.activeTasksByProject) (hc : counterOk s)
    (helig : eligibleTask s.activeTasksByProject t = true) :
    QInv { s.admitTask t rest with running := s.running ++ [t] } := by
  refine ⟨hlt, entriesOne_admitCount he (fun p hp => eligible_some_zero hp helig), ?_⟩
  intro p
  have h2 := counter_admitCount helig p
  have h3 := hc p
  rw [countProject_append] at h3
  simp only [TaskQueue.admitTask]
  rw [countProject_append, countProject_append]
  omega

/-- The state after admitting `t` whose executor throws synchronously (the
task moves to `leaked`) satisfies the invariant. -/
theorem QInv_admit_leaked {s : TaskQueue} {t : QueuedTask} {rest : List QueuedTask}
    (hlt : s.activeWorkers < s.maxWorkers)
    (he : entriesOne s.activeTasksByProject) (hc : counterOk s)
    (helig : eligibleTask s.activeTasksByProject t = true) :
    QInv { s.admitTask t rest with leaked := s.leaked ++ [t] } := by
  refine ⟨hlt, entriesOne_admitCount he (fun p hp => eligible_some_zero hp helig), ?_⟩
  intro p
  have h2 := counter_admitCount helig p
  have h3 := hc p
  rw [countProject_append] at h3
  simp only [TaskQueue.admitTask]
  rw [countProject_append, countProject_append]
  omega

theorem processQueueAux_inv (fuel : Nat) :
    ∀ s : TaskQueue, QInv s → QInv (processQueueAux s fuel).1 := by
  induction fuel with
  | zero => intro s h; simpa [processQueueAux] using h
  | succ fuel ih =>
    intro s h
    obtain ⟨hw, he, hc⟩ := h
    simp only [processQueueAux]
    by_cases hlt : s.activeWorkers < s.maxWorkers
    · rw [if_pos hlt]
      cases hex : extractEligible s.activeTasksByProject s.queue with
      | none => exact ⟨hw, he, hc⟩
      | some pr =>
        obtain ⟨t, rest⟩ := pr
        have helig := extractEligible_eligible hex
        by_cases hthrow : t.throwsSync
        · simp only [hthrow, if_true]
          exact QInv_admit_leaked hlt he hc helig
        · simp only [hthrow, Bool.false_eq_true, if_false]
          exact ih _ (QInv_admit_running hlt he hc helig)
    · rw [if_neg hlt]
      exact ⟨hw, he, hc⟩

/-- The admission loop never changes the configured worker limit. -/
theorem processQueueAux_maxWorkers (fuel : Nat) :
    ∀ s : TaskQueue, (processQueueAux s fuel).1.maxWorkers = s.maxWorkers := by
  induction fuel with
  | zero => intro s; simp [processQueueAux]
  | succ fuel ih =>
    intro s
    simp only [processQueueAux]
    by_cases hlt : s.activeWorkers < s.maxWorkers
    · rw [if_pos hlt]
      cases hex : extractEligible s.activeTasksByProject s.queue with
      | none => rfl
      | some pr =>
        obtain ⟨t, rest⟩ := pr
        by_cases hthrow : t.throwsSync
        · simp [hthrow, TaskQueue.admitTask]
        · simp only [hthrow, Bool.false_eq_true, if_false]
          rw [ih]
          simp [TaskQueue.admitTask]
    · rw [if_neg hlt]

/-- The admission loop never settles any promise. -/
theorem processQueueAux_settled (fuel : Nat) :
    ∀ s : TaskQueue, (processQueueAux s fuel).1.settled = s.settled := by
  induction fuel with
  | zero => intro s; simp [processQueueAux]
  | succ fuel ih =>
    intro s
    simp only [processQueueAux]
    by_cases hlt : s.activeWorkers < s.maxWorkers
    · rw [if_pos hlt]
      cases hex : extractEligible s.activeTasksByProject s.queue with
      | none => rfl
      | some pr =>
        obtain ⟨t, rest⟩ := pr
        by_cases hthrow : t.throwsSync
        · simp [hthrow, TaskQueue.admitTask]
        · simp only [hthrow, Bool.false_eq_true, if_false]
          rw [ih]
          simp [TaskQueue.admitTask]
    · rw [if_neg hlt]

/-- Completion preserves the bookkeeping invariant. -/
theorem QInv_complete {s : TaskQueue} (id : Nat) (ok : Bool) (h : QInv s) :
    QInv (s.complete id ok) := by
  obtain ⟨hw, he, hc⟩ := h
  rw [TaskQueue.complete]
  cases hfind : s.running.find? (fun u => u.id == id) with
  | none => exact ⟨hw, he, hc⟩
  | some t =>
    apply processQueueAux_inv
    refine ⟨Nat.le_trans (Nat.sub_le _ _) hw, entriesOne_complete he, ?_⟩
    intro p
    have hrm := countP_removeFirst hfind (fun u => u.projectId == some p)
    have h3 := hc p
    rw [countProject_append] at h3
    simp only
    rw [countProject_append]
    cases hpid : t.projectId with
    | none =>
      have hone : (if (t.projectId == some p) = true then 1 else 0) = 0 := by
        simp [hpid]
      rw [hone] at hrm
      rw [completeProjectCount]
      simp only [countProject] at h3 ⊢
      omega
    | some pd =>
      have hcnt1 : 0 < countProject pd (s.running) := by
        rw [countProject, List.countP_pos_iff]
        exact ⟨t, List.mem_of_find?_eq_some hfind, by simp [hpid]⟩
      have hle := getD_le_one he pd
      have hget1 : (mapGet s.activeTasksByProject pd).getD 0 = 1 := by
        have h4 := hc pd
        rw [countProject_append] at h4
        omega
      rw [completeProjectCount]
      simp only [hget1]
      rw [if_pos (by omega : (1 : Nat) ≤ 1)]
      by_cases hpp : pd = p
      · subst hpp
        have hone : (if (t.projectId == some pd) = true then 1 else 0) = 1 := by
          simp [hpid]
        rw [hone] at hrm
        rw [mapGet_mapDelete_self]
        have h4 := hc pd
        rw [countProject_append] at h4
        simp only [countProject, Option.getD_none] at hrm h4 ⊢
        omega
      · have hone : (if (t.projectId == some p) = true then 1 else 0) = 0 := by
          simp [hpid, hpp]
        rw [hone] at hrm
        rw [mapGet_mapDelete_ne _ _ _ (fun hh => hpp hh.symm)]
        simp only [countProject] at hrm h3 ⊢
        omega

/-- Enqueue preserves the bookkeeping invariant. -/
theorem QInv_enqueue {s : TaskQueue} (t : QueuedTask) (h : QInv s) :
    QInv (s.enqueue t) := by
  obtain ⟨hw, he, hc⟩ := h
  have hpre : QInv { s with queue := s.queue ++ [t] } := ⟨hw, he, hc⟩
  have hpost := processQueueAux_inv
    ({ s with queue := s.queue ++ [t] } : TaskQueue).queue.length _ hpre
  rw [TaskQueue.enqueue]
  rcases hres : TaskQueue.processQueue { s with queue := s.queue ++ [t] } with ⟨s1, o⟩
  rw [TaskQueue.processQueue] at hres
  rw [hres] at hpost
  cases o with
  | none => exact hpost
  | some e => exact ⟨hpost.1, hpost.2.1, hpost.2.2⟩

/-- Every event step preserves the bookkeeping invariant. -/
theorem QInv_step {s : TaskQueue} (e : QEvent) (h : QInv s) : QInv (s.step e) := by
  cases e with
  | enqueue t => exact QInv_enqueue t h
  | complete id ok => exact QInv_complete id ok h

theorem QInv_foldl (evs : List QEvent) :
    ∀ s : TaskQueue, QInv s → QInv (evs.foldl TaskQueue.step s) := by
  induction evs with
  | nil => intro s h; exact h
  | cons e r ih => intro s h; exact ih _ (QInv_step e h)

/-- Every reachable queue state satisfies the bookkeeping invariant. -/
theorem QInv_run (N : Nat) (evs : List QEvent) : QInv (TaskQueue.run N evs) := by
  apply QInv_foldl
  exact ⟨Nat.zero_le _, fun e he => by simp [TaskQueue.init] at he, fun p => by
    simp [TaskQueue.init, countProject, mapGet]⟩

/-- Event steps never change the configured worker limit. -/
theorem step_maxWorkers (s : TaskQueue) (e : QEvent) :
    (s.step e).maxWorkers = s.maxWorkers := by
  cases e with
  | enqueue t =>
    have hmw := processQueueAux_maxWorkers
      ({ s with queue := s.queue ++ [t] } : TaskQueue).queue.length
      { s with queue := s.queue ++ [t] }
    rw [TaskQueue.step, TaskQueue.enqueue]
    rcases hres : TaskQueue.processQueue { s with queue := s.queue ++ [t] } with ⟨s1, o⟩
    rw [TaskQueue.processQueue] at hres
    rw [hres] at hmw
    cases o with
    | none => exact hmw
    | some e => exact hmw
  | complete id ok =>
    rw [TaskQueue.step, TaskQueue.complete]
    cases hfind : s.running.find? (fun u => u.id == id) with
    | none => rfl
    | some t => exact processQueueAux_maxWorkers _ _

theorem run_maxWorkers (N : Nat) (evs : List QEvent) :
    (TaskQueue.run N evs).maxWorkers = N := by
  rw [TaskQueue.run]
  induction evs using List.reverseRecOn with
  | nil => rfl
  | append_singleton r e ih =>
    rw [List.foldl_append, List.foldl_cons, List.foldl_nil, step_maxWorkers]
    exact ih

/-! ## Claim theorems: capacity, group exclusivity, counter shape -/

/-- C1: for every capacity N ≥ 1 (equivalently, whenever the constructor
succeeds) and every sequence of enqueue calls and task completions on a
TaskQueue constructed with maxWorkers = N, at no instant does the number
of currently running tasks reported by getActiveWorkers exceed N. -/
theorem taskQueue_capacity_invariant (N : Nat) (q0 : TaskQueue)
    (hcreate : TaskQueue.create N = Except.ok q0) (evs : List QEvent) :
    (evs.foldl TaskQueue.step q0).getActiveWorkers ≤ N := by
  rw [TaskQueue.create] at hcreate
  by_cases h1 : N < 1
  · simp [h1] at hcreate
  · simp only [h1, if_false] at hcreate
    have hq0 : q0 = TaskQueue.init N := by
      cases hcreate
      rfl
    subst hq0
    have hinv := QInv_run N evs
    have hmw := run_maxWorkers N evs
    rw [TaskQueue.run] at hinv hmw
    rw [TaskQueue.getActiveWorkers]
    exact le_of_le_of_eq hinv.1 hmw

theorem taskQueue_capacity_invariant_witness :
    TaskQueue.create 2 = Except.ok (TaskQueue.init 2) ∧
    (([QEvent.enqueue ⟨1, none, false⟩, QEvent.enqueue ⟨2, none, false⟩,
       QEvent.enqueue ⟨3, none, false⟩] : List QEvent).foldl
        TaskQueue.step (TaskQueue.init 2)).getActiveWorkers ≤ 2 :=
  ⟨rfl, taskQueue_capacity_invariant 2 (TaskQueue.init 2) rfl _⟩

/-- C2: for every groupKey (projectId) G, at no reachable instant are two
tasks with that projectId running simultaneously. -/
theorem taskQueue_group_exclusivity (N : Nat) (evs : List QEvent) (p : String) :
    countProject p (TaskQueue.run N evs).running ≤ 1 := by
  obtain ⟨hw, he, hc⟩ := QInv_run N evs
  have h1 := hc p
  rw [countProject_append] at h1
  have h2 := getD_le_one he p
  omega

/-- C10: in every reachable TaskQueue state, every entry of the
active-tasks-by-project map has count exactly 1. -/
theorem taskQueue_project_count_exactly_one (N : Nat) (evs : List QEvent)
    (e : String × Nat) (he : e ∈ (TaskQueue.run N evs).getActiveTasksByProject) :
    e.2 = 1 :=
  (QInv_run N evs).2.1 e he

theorem taskQueue_project_count_exactly_one_witness :
    (("p1", 1) ∈ (TaskQueue.run 1
      [QEvent.enqueue ⟨1, some "p1", false⟩]).getActiveTasksByProject) ∧
    (("p1", 1) : String × Nat).2 = 1 :=
  ⟨by decide, taskQueue_project_count_exactly_one 1
    [QEvent.enqueue ⟨1, some "p1", false⟩] ("p1", 1) (by decide)⟩

/-! ## Saturation: the admission loop runs to its fixpoint

These lemmas assume every executor in play is a proper async function
(returns a promise instead of throwing synchronously), which is the
interface contract of the enqueue API; a synchronous throw would abort
the admission loop early. -/

/-- The event carries no synchronously-throwing executor. -/
def eventNoThrow : QEvent → Bool
  | .enqueue t => !t.throwsSync
  | .complete _ _ => true

/-- Free capacity implies that no pending task is eligible: every pending
task's project has a running task. -/
def saturated (s : TaskQueue) : Prop :=
  s.activeWorkers < s.maxWorkers →
    ∀ t ∈ s.queue, eligibleTask s.activeTasksByProject t = false

theorem processQueueAux_saturates (fuel : Nat) :
    ∀ s : TaskQueue, (∀ t ∈ s.queue, t.throwsSync = false) →
      s.queue.length ≤ fuel →
      saturated (processQueueAux s fuel).1 ∧
      (∀ t ∈ (processQueueAux s fuel).1.queue, t.throwsSync = false) := by
  induction fuel with
  | zero =>
    intro s hnt hlen
    have hnil : s.queue = [] := List.eq_nil_of_length_eq_zero (Nat.le_zero.mp hlen)
    simp only [processQueueAux]
    exact ⟨fun _ t ht => by rw [hnil] at ht; simp at ht, hnt⟩
  | succ fuel ih =>
    intro s hnt hlen
    simp only [processQueueAux]
    by_cases hlt : s.activeWorkers < s.maxWorkers
    · rw [if_pos hlt]
      cases hex : extractEligible s.activeTasksByProject s.queue with
      | none => exact ⟨fun _ => extractEligible_none_all hex, hnt⟩
      | some pr =>
        obtain ⟨t, rest⟩ := pr
        have htmem := extractEligible_mem hex
        have hthrow : t.throwsSync = false := hnt t htmem
        simp only [hthrow, Bool.false_eq_true, if_false]
        apply ih
        · intro u hu
          exact hnt u (extractEligible_subset hex u hu)
        · have := extractEligible_length hex
          simp only [TaskQueue.admitTask]
          omega
    · rw [if_neg hlt]
      exact ⟨fun hlt' => absurd hlt' hlt, hnt⟩

theorem step_saturates {s : TaskQueue} (e : QEvent)
    (hnt : ∀ t ∈ s.queue, t.throwsSync = false)
    (hsat : saturated s) (hne : eventNoThrow e = true) :
    saturated (s.step e) ∧ (∀ t ∈ (s.step e).queue, t.throwsSync = false) := by
  cases e with
  | enqueue t =>
    have htn : t.throwsSync = false := by
      simpa [eventNoThrow] using hne
    have hnt1 : ∀ u ∈ ({ s with queue := s.queue ++ [t] } : TaskQueue).queue,
        u.throwsSync = false := by
      intro u hu
      simp only [List.mem_append, List.mem_singleton] at hu
      rcases hu with hu | hu
      · exact hnt u hu
      · rw [hu]; exact htn
    have hres := processQueueAux_saturates
      ({ s with queue := s.queue ++ [t] } : TaskQueue).queue.length _ hnt1 (le_refl _)
    rw [TaskQueue.step, TaskQueue.enqueue]
    rcases hq : TaskQueue.processQueue { s with queue := s.queue ++ [t] } with ⟨s1, o⟩
    rw [TaskQueue.processQueue] at hq
    rw [hq] at hres
    cases o with
    | none => exact hres
    | some e => exact hres
  | complete id ok =>
    rw [TaskQueue.step, TaskQueue.complete]
    cases hfind : s.running.find? (fun u => u.id == id) with
    | none => exact ⟨hsat, hnt⟩
    | some t =>
      exact processQueueAux_saturates _
        { s with
          running := removeFirst (fun u => u.id == id) s.running
          settled := s.settled ++ [(id, ok)]
          activeWorkers := s.activeWorkers - 1
          activeTasksByProject := completeProjectCount s.activeTasksByProject t.projectId }
        hnt (le_refl _)

theorem foldl_saturates (evs : List QEvent) :
    ∀ s : TaskQueue, (∀ t ∈ s.queue, t.throwsSync = false) → saturated s →
      evs.all eventNoThrow = true →
      saturated (evs.foldl TaskQueue.step s) := by
  induction evs with
  | nil => intro s hnt hsat _; exact hsat
  | cons e r ih =>
    intro s hnt hsat hall
    rw [List.all_cons, Bool.and_eq_true] at hall
    have hstep := step_saturates e hnt hsat hall.1
    exact ih _ hstep.2 hstep.1 hall.2

/-- C3: in every reachable state with only promise-returning executors,
whenever running capacity remains free, no pending task is admissible:
every pending task is grouped and its group is busy.  Equivalently, a
pending task that is ungrouped or whose group is idle is admitted as soon
as capacity exists, skipping over blocked tasks ahead of it. -/
theorem taskQueue_group_independence (N : Nat) (evs : List QEvent)
    (h : evs.all eventNoThrow = true)
    (hfree : (TaskQueue.run N evs).getActiveWorkers < (TaskQueue.run N evs).getMaxWorkers) :
    ∀ t ∈ (TaskQueue.run N evs).queue,
      eligibleTask (TaskQueue.run N evs).getActiveTasksByProject t = false := by
  have hsat := foldl_saturates evs (TaskQueue.init N)
    (by intro t ht; simp [TaskQueue.init] at ht)
    (by intro hlt t ht; simp [TaskQueue.init] at ht) h
  rw [TaskQueue.run]
  exact hsat hfree

theorem taskQueue_group_independence_witness :
    eligibleTask
      (TaskQueue.run 2 [QEvent.enqueue ⟨1, some "p1", false⟩,
        QEvent.enqueue ⟨2, some "p1", false⟩]).getActiveTasksByProject
      ⟨2, some "p1", false⟩ = false :=
  taskQueue_group_independence 2
    [QEvent.enqueue ⟨1, some "p1", false⟩, QEvent.enqueue ⟨2, some "p1", false⟩]
    (by decide) (by decide) ⟨2, some "p1", false⟩ (by decide)

/-! ## FIFO among ungrouped tasks -/

/-- Ids of the enqueued tasks of a trace, in enqueue order. -/
def enqueuedIds : List QEvent → List Nat
  | [] => []
  | QEvent.enqueue t :: r => t.id :: enqueuedIds r
  | QEvent.complete _ _ :: r => enqueuedIds r

/-- The event carries no grouped task. -/
def eventUngrouped : QEvent → Bool
  | .enqueue t => t.projectId.isNone
  | .complete _ _ => true

theorem extractEligible_nil (m : List (String × Nat)) :
    extractEligible m [] = none := rfl

theorem extractEligible_ungrouped_cons {m : List (String × Nat)}
    {t : QueuedTask} {r : List QueuedTask} (h : t.projectId = none) :
    extractEligible m (t :: r) = some (t, r) := by
  simp [extractEligible, eligibleTask, h]

theorem processQueueAux_fifo (fuel : Nat) :
    ∀ s : TaskQueue, (∀ t ∈ s.queue, t.projectId = none) →
      (processQueueAux s fuel).1.started
          ++ (processQueueAux s fuel).1.queue.map (fun t => t.id)
        = s.started ++ s.queue.map (fun t => t.id) ∧
      (∀ t ∈ (processQueueAux s fuel).1.queue, t.projectId = none) := by
  induction fuel with
  | zero => intro s hq; simp only [processQueueAux]; exact ⟨trivial, hq⟩
  | succ fuel ih =>
    intro s hq
    simp only [processQueueAux]
    by_cases hlt : s.activeWorkers < s.maxWorkers
    · rw [if_pos hlt]
      cases hcons : s.queue with
      | nil =>
        rw [extractEligible_nil]
        refine ⟨?_, hq⟩
        show s.started ++ List.map (fun (t : QueuedTask) => t.id) s.queue
          = s.started ++ List.map (fun (t : QueuedTask) => t.id) []
        rw [hcons]
      | cons t r =>
        have htn : t.projectId = none := hq t (by rw [hcons]; simp)
        rw [extractEligible_ungrouped_cons htn]
        have hrn : ∀ u ∈ r, u.projectId = none := by
          intro u hu
          exact hq u (by rw [hcons]; simp [hu])
        by_cases hthrow : t.throwsSync
        · simp only [hthrow, if_true]
          constructor
          · simp [TaskQueue.admitTask, hcons]
          · exact hrn
        · simp only [hthrow, Bool.false_eq_true, if_false]
          have := ih { s.admitTask t r with running := s.running ++ [t] }
            (by simpa [TaskQueue.admitTask] using hrn)
          refine ⟨?_, this.2⟩
          rw [this.1]
          simp [TaskQueue.admitTask, hcons]
    · rw [if_neg hlt]
      exact ⟨rfl, hq⟩

/-- Unfolding of `complete` when the id is found among the running
tasks. -/
theorem complete_eq {s : TaskQueue} {id : Nat} {ok : Bool} {t : QueuedTask}
    (hfind : s.running.find? (fun u => u.id == id) = some t) :
    s.complete id ok = (processQueueAux
      { s with
        running := removeFirst (fun u => u.id == id) s.running
        settled := s.settled ++ [(id, ok)]
        activeWorkers := s.activeWorkers - 1
        activeTasksByProject := completeProjectCount s.activeTasksByProject t.projectId }
      s.queue.length).1 := by
  rw [TaskQueue.complete, hfind]
  rfl

theorem step_fifo {s : TaskQueue} (e : QEvent)
    (hq : ∀ t ∈ s.queue, t.projectId = none) (hu : eventUngrouped e = true) :
    (s.step e).started ++ (s.step e).queue.map (fun t => t.id)
        = s.started ++ s.queue.map (fun t => t.id) ++ enqueuedIds [e] ∧
      (∀ t ∈ (s.step e).queue, t.projectId = none) := by
  cases e with
  | enqueue t =>
    have htn : t.projectId = none := by
      simpa [eventUngrouped, Option.isNone_iff_eq_none] using hu
    have hq1 : ∀ u ∈ ({ s with queue := s.queue ++ [t] } : TaskQueue).queue,
        u.projectId = none := by
      intro u hu'
      simp only [List.mem_append, List.mem_singleton] at hu'
      rcases hu' with hu' | hu'
      · exact hq u hu'
      · rw [hu']; exact htn
    have hres := processQueueAux_fifo
      ({ s with queue := s.queue ++ [t] } : TaskQueue).queue.length _ hq1
    rw [TaskQueue.step, TaskQueue.enqueue]
    rcases hpq : TaskQueue.processQueue { s with queue := s.queue ++ [t] } with ⟨s1, o⟩
    rw [TaskQueue.processQueue] at hpq
    rw [hpq] at hres
    have hgoal : s1.started ++ s1.queue.map (fun t => t.id)
        = s.started ++ s.queue.map (fun t => t.id) ++ enqueuedIds [QEvent.enqueue t] := by
      rw [hres.1]
      simp [enqueuedIds]
    cases o with
    | none => exact ⟨hgoal, hres.2⟩
    | some e => exact ⟨hgoal, hres.2⟩
  | complete id ok =>
    cases hfind : s.running.find? (fun u => u.id == id) with
    | none =>
      rw [TaskQueue.step, TaskQueue.complete, hfind]
      exact ⟨by simp [enqueuedIds], hq⟩
    | some t =>
      rw [TaskQueue.step, complete_eq hfind]
      have hres := processQueueAux_fifo s.queue.length
        { s with
          running := removeFirst (fun u => u.id == id) s.running
          settled := s.settled ++ [(id, ok)]
          activeWorkers := s.activeWorkers - 1
          activeTasksByProject := completeProjectCount s.activeTasksByProject t.projectId }
        hq
      refine ⟨?_, hres.2⟩
      rw [hres.1]
      simp [enqueuedIds]

theorem foldl_fifo (evs : List QEvent) :
    ∀ s : TaskQueue, (∀ t ∈ s.queue, t.projectId = none) →
      evs.all eventUngrouped = true →
      (evs.foldl TaskQueue.step s).started
          ++ (evs.foldl TaskQueue.step s).queue.map (fun t => t.id)
        = s.started ++ s.queue.map (fun t => t.id) ++ enqueuedIds evs := by
  induction evs with
  | nil => intro s hq _; simp [enqueuedIds]
  | cons e r ih =>
    intro s hq hall
    rw [List.all_cons, Bool.and_eq_true] at hall
    have hstep := step_fifo e hq hall.1
    rw [List.foldl_cons]
    rw [ih _ hstep.2 hall.2, hstep.1]
    cases e with
    | enqueue t => simp [enqueuedIds]
    | complete id ok => simp [enqueuedIds]

/-- C9: with capacity 1 and only ungrouped tasks, executors are invoked
in enqueue order: the invocation order recorded in `started`, followed by
the ids still pending in FIFO order, is exactly the enqueue order of the
trace.  In particular `started` is always a prefix of the enqueue
order. -/
theorem taskQueue_fifo_ungrouped (evs : List QEvent)
    (h : evs.all eventUngrouped = true) :
    (TaskQueue.run 1 evs).started ++ (TaskQueue.run 1 evs).queue.map (fun t => t.id)
      = enqueuedIds evs := by
  have := foldl_fifo evs (TaskQueue.init 1)
    (by intro t ht; simp [TaskQueue.init] at ht) h
  rw [TaskQueue.run]
  rw [this]
  simp [TaskQueue.init]

theorem taskQueue_fifo_ungrouped_witness :
    (TaskQueue.run 1 [QEvent.enqueue ⟨1, none, false⟩, QEvent.enqueue ⟨2, none, false⟩,
        QEvent.enqueue ⟨3, none, false⟩]).started
      ++ (TaskQueue.run 1 [QEvent.enqueue ⟨1, none, false⟩, QEvent.enqueue ⟨2, none, false⟩,
        QEvent.enqueue ⟨3, none, false⟩]).queue.map (fun t => t.id)
      = enqueuedIds [QEvent.enqueue ⟨1, none, false⟩, QEvent.enqueue ⟨2, none, false⟩,
        QEvent.enqueue ⟨3, none, false⟩] :=
  taskQueue_fifo_ungrouped _ (by decide)

/-! ## Synchronous-throw delivery (C8) -/

/-- C8 (amended): the enqueue call itself never throws: the only promise
an enqueue call can settle synchronously is the promise it returns,
rejected precisely when a synchronously-throwing executor is admitted
during that call; and a running task's rejection is delivered through the
promise returned by its own enqueue call. -/
theorem taskQueue_enqueue_failure_delivery :
    (∀ (s : TaskQueue) (t : QueuedTask),
      (s.enqueue t).settled = s.settled ∨
      (s.enqueue t).settled = s.settled ++ [(t.id, false)]) ∧
    (∀ (s : TaskQueue) (id : Nat) (t : QueuedTask),
      s.running.find? (fun u => u.id == id) = some t →
      (s.complete id false).settled = s.settled ++ [(id, false)]) := by
  constructor
  · intro s t
    have hst := processQueueAux_settled
      ({ s with queue := s.queue ++ [t] } : TaskQueue).queue.length
      { s with queue := s.queue ++ [t] }
    rw [TaskQueue.enqueue]
    rcases hpq : TaskQueue.processQueue { s with queue := s.queue ++ [t] } with ⟨s1, o⟩
    rw [TaskQueue.processQueue] at hpq
    rw [hpq] at hst
    cases o with
    | none => exact Or.inl hst
    | some e =>
      right
      simp only
      rw [hst]
  · intro s id t hfind
    rw [TaskQueue.complete, hfind]
    exact processQueueAux_settled _ _

theorem taskQueue_enqueue_failure_delivery_witness :
    ((TaskQueue.run 1 [QEvent.enqueue ⟨7, none, false⟩]).running.find?
        (fun u => u.id == 7) = some ⟨7, none, false⟩) ∧
    ((TaskQueue.run 1 [QEvent.enqueue ⟨7, none, false⟩]).complete 7 false).settled
      = (TaskQueue.run 1 [QEvent.enqueue ⟨7, none, false⟩]).settled ++ [(7, false)] :=
  ⟨by decide, taskQueue_enqueue_failure_delivery.2
    (TaskQueue.run 1 [QEvent.enqueue ⟨7, none, false⟩]) 7 ⟨7, none, false⟩ (by decide)⟩

/-- C8 counterexample: with capacity 1, task 2's executor throws
synchronously and is admitted from the completion of task 1 (a
`.finally` reaction, not an enqueue call).  Its executor is invoked
(started = [1, 2]) and the queue and running list end empty, yet the only
settlement ever delivered is task 1's resolution: task 2's failure is not
delivered through the promise returned by its enqueue call, which never
settles (the task is leaked). -/
theorem taskQueue_sync_throw_not_delivered :
    (TaskQueue.run 1 [QEvent.enqueue ⟨1, none, false⟩, QEvent.enqueue ⟨2, none, true⟩,
        QEvent.complete 1 true]).started = [1, 2] ∧
    (TaskQueue.run 1 [QEvent.enqueue ⟨1, none, false⟩, QEvent.enqueue ⟨2, none, true⟩,
        QEvent.complete 1 true]).settled = [(1, true)] ∧
    (TaskQueue.run 1 [QEvent.enqueue ⟨1, none, false⟩, QEvent.enqueue ⟨2, none, true⟩,
        QEvent.complete 1 true]).queue = [] ∧
    (TaskQueue.run 1 [QEvent.enqueue ⟨1, none, false⟩, QEvent.enqueue ⟨2, none, true⟩,
        QEvent.complete 1 true]).running = [] ∧
    (TaskQueue.run 1 [QEvent.enqueue ⟨1, none, false⟩, QEvent.enqueue ⟨2, none, true⟩,
        QEvent.complete 1 true]).leaked = [⟨2, none, true⟩] := by
  decide

/-! ## In-process device lock (DeviceLockUtils.ts)

The module-level map from device serial to a busy flag, polled by
withDeviceLock.  The JS event loop is single threaded, so one iteration
of the polling loop — re-reading locks.get(serial) and, if free, setting
it and entering the critical section — is one synchronous slice, modelled
as one atomic `poll` step.  `call` models a new withDeviceLock invocation
(its first poll may come at any later step), and `finish` models the
action settling, whose finally-handler writes locks.set(serial, false). -/

inductive WPhase where
  | waiting
  | critical
  | finished
  deriving Repr, DecidableEq

structure WCaller where
  cid : Nat
  serial : String
  phase : WPhase
  deriving Repr, DecidableEq

structure DeviceLocks where
  locks : List (String × Bool)
  callers : List WCaller
  deriving Repr, DecidableEq

inductive WEvent where
  | call (cid : Nat) (serial : String)
  | poll (cid : Nat)
  | finish (cid : Nat)
  deriving Repr, DecidableEq

/-- Apply `f` to the first list element satisfying `p`. -/
def updFirst {α : Type} (p : α → Bool) (f : α → α) : List α → List α
  | [] => []
  | a :: r => if p a then f a :: r else a :: updFirst p f r

/-- locks.get(serial): undefined (no entry) counts as not busy. -/
def lockBusy (m : List (String × Bool)) (k : String) : Bool :=
  (mapGet m k).getD false

def DeviceLocks.step (s : DeviceLocks) : WEvent → DeviceLocks
  | .call cid serial => { s with callers := s.callers ++ [⟨cid, serial, .waiting⟩] }
  | .poll cid =>
    match s.callers.find? (fun c => c.cid == cid) with
    | some c =>
      if c.phase == WPhase.waiting then
        if lockBusy s.locks c.serial then s
        else
          { locks := mapSet s.locks c.serial true
            callers := updFirst (fun d => d.cid == cid)
              (fun d => { d with phase := .critical }) s.callers }
      else s
    | none => s
  | .finish cid =>
    match s.callers.find? (fun c => c.cid == cid) with
    | some c =>
      if c.phase == WPhase.critical then
        { locks := mapSet s.locks c.serial false
          callers := updFirst (fun d => d.cid == cid)
            (fun d => { d with phase := .finished }) s.callers }
      else s
    | none => s

def DeviceLocks.run (evs : List WEvent) : DeviceLocks :=
  evs.foldl DeviceLocks.step { locks := [], callers := [] }

/-- Number of callers currently inside their critical section for the
given device serial. -/
def critCount (s : DeviceLocks) (k : String) : Nat :=
  s.callers.countP (fun c => c.serial == k && c.phase == WPhase.critical)

/-- The in-process lock invariant: for each serial, the number of callers
in their critical section is 1 exactly when the busy flag is set, and 0
otherwise. -/
def WInv (s : DeviceLocks) : Prop :=
  ∀ k : String, critCount s k = (if lockBusy s.locks k then 1 else 0)

theorem countP_updFirst {α : Type} {p : α → Bool} {l : List α} {a : α}
    (h : l.find? p = some a) (q : α → Bool) (f : α → α) :
    (updFirst p f l).countP q + (if q a then 1 else 0)
      = l.countP q + (if q (f a) then 1 else 0) := by
  induction l with
  | nil => simp [List.find?] at h
  | cons b r ih =>
    by_cases hb : p b
    · rw [List.find?_cons_of_pos _ hb] at h
      have hab : b = a := by simpa using h
      subst hab
      simp only [updFirst, if_pos hb, List.countP_cons]
      omega
    · rw [List.find?_cons_of_neg _ hb] at h
      have := ih h
      simp only [updFirst, if_neg hb, List.countP_cons]
      omega

theorem WInv_step {s : DeviceLocks} (e : WEvent) (h : WInv s) : WInv (s.step e) := by
  cases e with
  | call cid serial =>
    intro k
    have hk := h k
    simp only [DeviceLocks.step, critCount, List.countP_append, List.countP_cons,
      List.countP_nil] at *
    simpa using hk
  | poll cid =>
    cases hfind : s.callers.find? (fun c => c.cid == cid) with
    | none => simpa only [DeviceLocks.step, hfind] using h
    | some c =>
      by_cases hw : (c.phase == WPhase.waiting) = true
      · by_cases hbusy : lockBusy s.locks c.serial = true
        · simpa only [DeviceLocks.step, hfind, if_pos hw, if_pos hbusy] using h
        · intro k
          simp only [DeviceLocks.step, hfind, if_pos hw, if_neg hbusy]
          have hwphase : c.phase = WPhase.waiting := by simpa using hw
          have hupd := countP_updFirst hfind
            (fun d => d.serial == k && d.phase == WPhase.critical)
            (fun d => { d with phase := WPhase.critical })
          have hk := h k
          simp only [critCount, lockBusy] at hk ⊢
          by_cases hsk : c.serial = k
          · subst hsk
            simp only [mapGet_mapSet_self, Option.getD_some, eq_self_iff_true, if_true]
            have hqc : ((c.serial == c.serial) && (c.phase == WPhase.critical)) = false := by
              simp [hwphase]
            have hqfc : ((({ c with phase := WPhase.critical } : WCaller).serial == c.serial)
                && (({ c with phase := WPhase.critical } : WCaller).phase == WPhase.critical))
                = true := by simp
            simp only [hqc, hqfc, Bool.false_eq_true, eq_self_iff_true, if_false, if_true,
              Nat.add_zero] at hupd
            have hbusyg : ¬((mapGet s.locks c.serial).getD false = true) := hbusy
            rw [if_neg hbusyg] at hk
            omega
          · have hne : k ≠ c.serial := fun hh => hsk hh.symm
            simp only [mapGet_mapSet_ne _ _ _ _ hne]
            have hqc : ((c.serial == k) && (c.phase == WPhase.critical)) = false := by
              simp [hsk]
            have hqfc : ((({ c with phase := WPhase.critical } : WCaller).serial == k)
                && (({ c with phase := WPhase.critical } : WCaller).phase == WPhase.critical))
                = false := by simp [hsk]
            simp only [hqc, hqfc, Bool.false_eq_true, if_false, Nat.add_zero] at hupd
            omega
      · simpa only [DeviceLocks.step, hfind, if_neg hw] using h
  | finish cid =>
    cases hfind : s.callers.find? (fun c => c.cid == cid) with
    | none => simpa only [DeviceLocks.step, hfind] using h
    | some c =>
      by_cases hcrit : (c.phase == WPhase.critical) = true
      · intro k
        simp only [DeviceLocks.step, hfind, if_pos hcrit]
        have hcphase : c.phase = WPhase.critical := by simpa using hcrit
        have hupd := countP_updFirst hfind
          (fun d => d.serial == k && d.phase == WPhase.critical)
          (fun d => { d with phase := WPhase.finished })
        have hk := h k
        simp only [critCount, lockBusy] at hk ⊢
        by_cases hsk : c.serial = k
        · subst hsk
          simp only [mapGet_mapSet_self, Option.getD_some, Bool.false_eq_true, if_false]
          have hqc : ((c.serial == c.serial) && (c.phase == WPhase.critical)) = true := by
            simp [hcphase]
          have hqfc : ((({ c with phase := WPhase.finished } : WCaller).serial == c.serial)
              && (({ c with phase := WPhase.finished } : WCaller).phase == WPhase.critical))
              = false := by simp
          simp only [hqc, hqfc, Bool.false_eq_true, eq_self_iff_true, if_false, if_true,
            Nat.add_zero] at hupd
          have hpos : 0 < s.callers.countP
              (fun d => d.serial == c.serial && d.phase == WPhase.critical) := by
            rw [List.countP_pos_iff]
            exact ⟨c, List.mem_of_find?_eq_some hfind, by simp [hcphase]⟩
          by_cases hbusy : (mapGet s.locks c.serial).getD false = true
          · rw [if_pos hbusy] at hk
            omega
          · rw [if_neg hbusy] at hk
            omega
        · have hne : k ≠ c.serial := fun hh => hsk hh.symm
          simp only [mapGet_mapSet_ne _ _ _ _ hne]
          have hqc : ((c.serial == k) && (c.phase == WPhase.critical)) = false := by
            simp [hsk]
          have hqfc : ((({ c with phase := WPhase.finished } : WCaller).serial == k)
              && (({ c with phase := WPhase.finished } : WCaller).phase == WPhase.critical))
              = false := by simp [hsk]
          simp only [hqc, hqfc, Bool.false_eq_true, if_false, Nat.add_zero] at hupd
          omega
      · simpa only [DeviceLocks.step, hfind, if_neg hcrit] using h

theorem WInv_run (evs : List WEvent) : WInv (DeviceLocks.run evs) := by
  rw [DeviceLocks.run]
  have hinit : WInv { locks := [], callers := [] } := by
    intro k
    simp [critCount, lockBusy, mapGet]
  induction evs using List.reverseRecOn with
  | nil => exact hinit
  | append_singleton r e ih =>
    rw [List.foldl_append, List.foldl_cons, List.foldl_nil]
    exact WInv_step e ih

/-! ## Cross-process directory lock (run-android-test SKILL.md)

The mkdir-based lock at syscall granularity.  Each filesystem or signal
system call of the script's acquisition loop is one transition, and the
scheduler interleaves the processes arbitrarily — across OS processes
there is no shared event loop, so nothing larger than a single syscall
is atomic.  Per process the loop performs, in order:

* mkdirSync(lockDir) — atomic create, EEXIST on contention;
* writeFileSync(lockPidFile, pid) — only after a successful mkdir;
* on EEXIST: readFileSync(lockPidFile) — an ENOENT lands in the catch
  block and is treated as stale;
* process.kill(readPid, 0) — throws when that owner is dead (stale);
* rmSync(lockDir, recursive, force) — the stale branch: remove whatever
  directory now exists, then loop back to mkdir;
* releaseLock: rmSync(lockDir).

A process's position between these calls is its phase; `probing q`
carries the pid it read.  The pid file is `some q` (parseable contents)
or `none` (not yet written); the unparseable contents of claim C5 make
the waiter sleep like a live owner and are not needed here.  A
writeFileSync whose directory was removed meanwhile throws ENOENT when
no directory exists now (a non-EEXIST error: the script prints it and
exits), and otherwise lands in whatever directory now exists — possibly
another process's fresh lock.  Pids are not recycled (spawn refuses an
existing pid), so the liveness probe is accurate. -/

inductive RPhase where
  | trying
  | writePid
  | reading
  | probing (q : Nat)
  | reclaim
  | holding
  | done
  deriving Repr, DecidableEq

structure RProc where
  pid : Nat
  phase : RPhase
  alive : Bool
  deriving Repr, DecidableEq

inductive LockDirState where
  | absent
  | present (pidFile : Option Nat)
  deriving Repr, DecidableEq

structure DirLockSys where
  dir : LockDirState
  procs : List RProc
  deriving Repr, DecidableEq

inductive REvent where
  | spawn (p : Nat)
  | mkdirTry (p : Nat)
  | writeFilePid (p : Nat)
  | readPidFile (p : Nat)
  | probeOwner (p : Nat)
  | rmStale (p : Nat)
  | release (p : Nat)
  | crash (p : Nat)
  deriving Repr, DecidableEq

/-- Move the process with the given pid to a new phase. -/
def updRProc (p : Nat) (ph : RPhase) (procs : List RProc) : List RProc :=
  updFirst (fun e => e.pid == p) (fun e => { e with phase := ph }) procs

/-- The process with the given pid hits a non-EEXIST error and exits
(process.exit(1)): it is gone and never holds the lock. -/
def exitProc (p : Nat) (procs : List RProc) : List RProc :=
  updFirst (fun e => e.pid == p)
    (fun e => { e with phase := RPhase.done, alive := false }) procs

/-- The liveness probe process.kill(q, 0): true iff a live process with
that pid exists. -/
def rProcAlive (procs : List RProc) (q : Nat) : Bool :=
  match procs.find? (fun d => d.pid == q) with
  | some d => d.alive
  | none => false

def DirLockSys.step (s : DirLockSys) : REvent → DirLockSys
  | .spawn p =>
    if s.procs.any (fun d => d.pid == p) then s
    else { s with procs := s.procs ++ [⟨p, .trying, true⟩] }
  | .mkdirTry p =>
    match s.procs.find? (fun d => d.pid == p) with
    | some d =>
      if d.alive && d.phase == RPhase.trying then
        match s.dir with
        | .absent => { dir := .present none, procs := updRProc p .writePid s.procs }
        | .present _ => { s with procs := updRProc p .reading s.procs }
      else s
    | none => s
  | .writeFilePid p =>
    match s.procs.find? (fun d => d.pid == p) with
    | some d =>
      if d.alive && d.phase == RPhase.writePid then
        match s.dir with
        | .absent => { s with procs := exitProc p s.procs }
        | .present _ =>
          { dir := .present (some p), procs := updRProc p .holding s.procs }
      else s
    | none => s
  | .readPidFile p =>
    match s.procs.find? (fun d => d.pid == p) with
    | some d =>
      if d.alive && d.phase == RPhase.reading then
        match s.dir with
        | .present (some q) => { s with procs := updRProc p (.probing q) s.procs }
        | .present none => { s with procs := updRProc p .reclaim s.procs }
        | .absent => { s with procs := updRProc p .reclaim s.procs }
      else s
    | none => s
  | .probeOwner p =>
    match s.procs.find? (fun d => d.pid == p) with
    | some d =>
      if d.alive then
        match d.phase with
        | .probing q =>
          if rProcAlive s.procs q then { s with procs := updRProc p .trying s.procs }
          else { s with procs := updRProc p .reclaim s.procs }
        | _ => s
      else s
    | none => s
  | .rmStale p =>
    match s.procs.find? (fun d => d.pid == p) with
    | some d =>
      if d.alive && d.phase == RPhase.reclaim then
        { dir := .absent, procs := updRProc p .trying s.procs }
      else s
    | none => s
  | .release p =>
    match s.procs.find? (fun d => d.pid == p) with
    | some d =>
      if d.alive && d.phase == RPhase.holding then
        { dir := .absent, procs := updRProc p .done s.procs }
      else s
    | none => s
  | .crash p =>
    { s with
      procs := updFirst (fun e => e.pid == p) (fun e => { e with alive := false }) s.procs }

def DirLockSys.run (evs : List REvent) : DirLockSys :=
  evs.foldl DirLockSys.step { dir := .absent, procs := [] }

/-- Number of live processes currently holding the lock (lockAcquired
set and not yet released). -/
def holdingCount (s : DirLockSys) : Nat :=
  s.procs.countP (fun d => d.alive && d.phase == RPhase.holding)

/-- The event is a stale-reclamation removal. -/
def isRmStale : REvent → Bool
  | .rmStale _ => true
  | _ => false

/-- C4 counterexample: the source's cross-process directory lock admits
two simultaneous live holders with no release and no crash.  Processes 1
and 2 contend on the same key: 1 mkdirs (directory now exists, pid file
not yet written); 2 hits EEXIST and reads the pid file before 1 writes
it, the ENOENT lands in the catch block ("stale"), so 2 removes 1's
fresh directory, re-creates it and writes its own pid, setting
lockAcquired; then 1 resumes and its writeFileSync lands in 2's
directory, after which 1 also sets lockAcquired.  Both acquire attempts
resolved with no release in between: the claim's cross-process mutual
exclusion is false of the code. -/
theorem deviceLock_cross_process_two_live_holders :
    holdingCount (DirLockSys.run
      [REvent.spawn 1, REvent.spawn 2, REvent.mkdirTry 1, REvent.mkdirTry 2,
       REvent.readPidFile 2, REvent.rmStale 2, REvent.mkdirTry 2,
       REvent.writeFilePid 2, REvent.writeFilePid 1]) = 2 := by
  decide

/-! ### Mutual exclusion holds in reclamation-free executions

Without the stale-reclamation removal, the lock directory is removed
only by its holder's release, and mkdir's atomic create-if-absent is the
only way in: the count of processes between a successful mkdir and the
matching release equals 1 exactly when the directory exists. -/

/-- A process between its successful mkdir and its release. -/
def wpOrHolding (d : RProc) : Bool :=
  d.phase == RPhase.writePid || d.phase == RPhase.holding

def dirCount : LockDirState → Nat
  | .absent => 0
  | .present _ => 1

/-- Inductive invariant of reclamation-free executions. -/
def RInv (s : DirLockSys) : Prop :=
  s.procs.countP wpOrHolding = dirCount s.dir

theorem updFirst_find?_none {α : Type} {pr : α → Bool} {l : List α}
    (h : l.find? pr = none) (f : α → α) : updFirst pr f l = l := by
  induction l with
  | nil => rfl
  | cons b r ih =>
    by_cases hb : pr b
    · rw [List.find?_cons_of_pos _ hb] at h
      simp at h
    · rw [List.find?_cons_of_neg _ hb] at h
      rw [updFirst, if_neg hb, ih h]

theorem countP_le_of_imp {α : Type} {p q : α → Bool} (l : List α)
    (h : ∀ a ∈ l, p a = true → q a = true) : l.countP p ≤ l.countP q := by
  induction l with
  | nil => simp
  | cons b r ih =>
    have hr := ih (fun a ha hpa => h a (List.mem_cons_of_mem _ ha) hpa)
    simp only [List.countP_cons]
    by_cases hb : p b = true
    · rw [if_pos hb, if_pos (h b (List.mem_cons_self _ _) hb)]
      omega
    · rw [if_neg hb]
      omega

theorem RInv_step {s : DirLockSys} (e : REvent) (hrm : isRmStale e = false)
    (h : RInv s) : RInv (s.step e) := by
  cases e with
  | spawn p =>
    by_cases hex : s.procs.any (fun d => d.pid == p) = true
    · simpa only [DirLockSys.step, if_pos hex] using h
    · simp only [RInv] at h ⊢
      simp only [DirLockSys.step, if_neg hex, List.countP_append, List.countP_cons,
        List.countP_nil]
      simpa [wpOrHolding] using h
  | mkdirTry p =>
    cases hfind : s.procs.find? (fun d => d.pid == p) with
    | none => simpa only [DirLockSys.step, hfind] using h
    | some d =>
      by_cases hcond : (d.alive && d.phase == RPhase.trying) = true
      · have hphase : d.phase = RPhase.trying := by
          rw [Bool.and_eq_true] at hcond
          simpa using hcond.2
        have hupd := countP_updFirst hfind wpOrHolding
          (fun e => { e with phase := RPhase.writePid })
        have hqd : wpOrHolding d = false := by simp [wpOrHolding, hphase]
        have hqfd : wpOrHolding { d with phase := RPhase.writePid } = true := by
          simp [wpOrHolding]
        simp only [hqd, hqfd, Bool.false_eq_true, eq_self_iff_true, if_false, if_true,
          Nat.add_zero] at hupd
        cases hdir : s.dir with
        | absent =>
          simp only [DirLockSys.step, hfind, if_pos hcond, hdir]
          simp only [RInv, dirCount, updRProc] at h ⊢
          rw [hdir] at h
          simp only [dirCount] at h
          omega
        | present pf =>
          simp only [DirLockSys.step, hfind, if_pos hcond, hdir]
          have hupd2 := countP_updFirst hfind wpOrHolding
            (fun e => { e with phase := RPhase.reading })
          have hqfd2 : wpOrHolding { d with phase := RPhase.reading } = false := by
            simp [wpOrHolding]
          simp only [hqd, hqfd2, Bool.false_eq_true, if_false, Nat.add_zero] at hupd2
          simp only [RInv, updRProc] at h ⊢
          rw [hdir] at h
          omega
      · simpa only [DirLockSys.step, hfind, if_neg hcond] using h
  | writeFilePid p =>
    cases hfind : s.procs.find? (fun d => d.pid == p) with
    | none => simpa only [DirLockSys.step, hfind] using h
    | some d =>
      by_cases hcond : (d.alive && d.phase == RPhase.writePid) = true
      · have hphase : d.phase = RPhase.writePid := by
          rw [Bool.and_eq_true] at hcond
          simpa using hcond.2
        have hqd : wpOrHolding d = true := by simp [wpOrHolding, hphase]
        have hpos : 0 < s.procs.countP wpOrHolding := by
          rw [List.countP_pos_iff]
          exact ⟨d, List.mem_of_find?_eq_some hfind, hqd⟩
        cases hdir : s.dir with
        | absent =>
          exfalso
          simp only [RInv] at h
          rw [hdir] at h
          simp only [dirCount] at h
          omega
        | present pf =>
          simp only [DirLockSys.step, hfind, if_pos hcond, hdir]
          have hupd := countP_updFirst hfind wpOrHolding
            (fun e => { e with phase := RPhase.holding })
          have hqfd : wpOrHolding { d with phase := RPhase.holding } = true := by
            simp [wpOrHolding]
          simp only [hqd, hqfd, eq_self_iff_true, if_true] at hupd
          simp only [RInv, dirCount, updRProc] at h ⊢
          rw [hdir] at h
          simp only [dirCount] at h
          omega
      · simpa only [DirLockSys.step, hfind, if_neg hcond] using h
  | readPidFile p =>
    cases hfind : s.procs.find? (fun d => d.pid == p) with
    | none => simpa only [DirLockSys.step, hfind] using h
    | some d =>
      by_cases hcond : (d.alive && d.phase == RPhase.reading) = true
      · have hphase : d.phase = RPhase.reading := by
          rw [Bool.and_eq_true] at hcond
          simpa using hcond.2
        have hqd : wpOrHolding d = false := by simp [wpOrHolding, hphase]
        have hstep : ∀ ph : RPhase, wpOrHolding { d with phase := ph } = false →
            (s.procs.countP wpOrHolding
              = (updRProc p ph s.procs).countP wpOrHolding) := by
          intro ph hqf
          have hupd := countP_updFirst hfind wpOrHolding
            (fun e => { e with phase := ph })
          simp only [hqd, hqf, Bool.false_eq_true, if_false, Nat.add_zero] at hupd
          simp only [updRProc]
          omega
        cases hdir : s.dir with
        | absent =>
          simp only [DirLockSys.step, hfind, if_pos hcond, hdir]
          simp only [RInv] at h ⊢
          rw [hdir] at h
          rw [← hstep RPhase.reclaim (by simp [wpOrHolding])]
          exact h
        | present pf =>
          cases pf with
          | none =>
            simp only [DirLockSys.step, hfind, if_pos hcond, hdir]
            simp only [RInv] at h ⊢
            rw [hdir] at h
            rw [← hstep RPhase.reclaim (by simp [wpOrHolding])]
            exact h
          | some q =>
            simp only [DirLockSys.step, hfind, if_pos hcond, hdir]
            simp only [RInv] at h ⊢
            rw [hdir] at h
            rw [← hstep (RPhase.probing q) (by simp [wpOrHolding])]
            exact h
      · simpa only [DirLockSys.step, hfind, if_neg hcond] using h
  | probeOwner p =>
    cases hfind : s.procs.find? (fun d => d.pid == p) with
    | none => simpa only [DirLockSys.step, hfind] using h
    | some d =>
      by_cases halive : d.alive = true
      · cases hphase : d.phase with
        | probing q =>
          have hqd : wpOrHolding d = false := by simp [wpOrHolding, hphase]
          have hstep : ∀ ph : RPhase, wpOrHolding { d with phase := ph } = false →
              (s.procs.countP wpOrHolding
                = (updRProc p ph s.procs).countP wpOrHolding) := by
            intro ph hqf
            have hupd := countP_updFirst hfind wpOrHolding
              (fun e => { e with phase := ph })
            simp only [hqd, hqf, Bool.false_eq_true, if_false, Nat.add_zero] at hupd
            simp only [updRProc]
            omega
          by_cases hal2 : rProcAlive s.procs q = true
          · simp only [DirLockSys.step, hfind, if_pos halive, hphase, if_pos hal2]
            simp only [RInv] at h ⊢
            rw [← hstep RPhase.trying (by simp [wpOrHolding])]
            exact h
          · simp only [DirLockSys.step, hfind, if_pos halive, hphase, if_neg hal2]
            simp only [RInv] at h ⊢
            rw [← hstep RPhase.reclaim (by simp [wpOrHolding])]
            exact h
        | trying => simpa only [DirLockSys.step, hfind, if_pos halive, hphase] using h
        | writePid => simpa only [DirLockSys.step, hfind, if_pos halive, hphase] using h
        | reading => simpa only [DirLockSys.step, hfind, if_pos halive, hphase] using h
        | reclaim => simpa only [DirLockSys.step, hfind, if_pos halive, hphase] using h
        | holding => simpa only [DirLockSys.step, hfind, if_pos halive, hphase] using h
        | done => simpa only [DirLockSys.step, hfind, if_pos halive, hphase] using h
      · simpa only [DirLockSys.step, hfind, if_neg halive] using h
  | rmStale p =>
    exfalso
    simp [isRmStale] at hrm
  | release p =>
    cases hfind : s.procs.find? (fun d => d.pid == p) with
    | none => simpa only [DirLockSys.step, hfind] using h
    | some d =>
      by_cases hcond : (d.alive && d.phase == RPhase.holding) = true
      · have hphase : d.phase = RPhase.holding := by
          rw [Bool.and_eq_true] at hcond
          simpa using hcond.2
        have hqd : wpOrHolding d = true := by simp [wpOrHolding, hphase]
        have hpos : 0 < s.procs.countP wpOrHolding := by
          rw [List.countP_pos_iff]
          exact ⟨d, List.mem_of_find?_eq_some hfind, hqd⟩
        have hupd := countP_updFirst hfind wpOrHolding
          (fun e => { e with phase := RPhase.done })
        have hqfd : wpOrHolding { d with phase := RPhase.done } = false := by
          simp [wpOrHolding]
        simp only [hqd, hqfd, Bool.false_eq_true, eq_self_iff_true, if_false, if_true,
          Nat.add_zero] at hupd
        simp only [DirLockSys.step, hfind, if_pos hcond]
        simp only [RInv, dirCount, updRProc] at h ⊢
        cases hdir : s.dir with
        | absent =>
          rw [hdir] at h
          simp only [dirCount] at h
          omega
        | present pf =>
          rw [hdir] at h
          simp only [dirCount] at h
          omega
      · simpa only [DirLockSys.step, hfind, if_neg hcond] using h
  | crash p =>
    simp only [DirLockSys.step]
    cases hfind : s.procs.find? (fun e => e.pid == p) with
    | none =>
      simp only [RInv] at h ⊢
      rw [updFirst_find?_none hfind]
      exact h
    | some d =>
      have hupd := countP_updFirst hfind wpOrHolding
        (fun e => { e with alive := false })
      have hqeq : wpOrHolding { d with alive := false } = wpOrHolding d := rfl
      rw [hqeq] at hupd
      simp only [RInv] at h ⊢
      omega

theorem RInv_foldl (evs : List REvent) :
    ∀ s : DirLockSys, RInv s → evs.all (fun e => !isRmStale e) = true →
      RInv (evs.foldl DirLockSys.step s) := by
  induction evs with
  | nil => intro s h _; exact h
  | cons e r ih =>
    intro s h hall
    rw [List.all_cons, Bool.and_eq_true] at hall
    have hrm : isRmStale e = false := by
      have := hall.1
      simp only [Bool.not_eq_true'] at this
      exact this
    exact ih _ (RInv_step e hrm h) hall.2

/-- C4 (amended): per-key mutual exclusion of the device locks.
In-process (withDeviceLock): at most one caller per serial is inside its
critical section in every reachable state, so a second withDeviceLock
call on the same serial cannot enter before the first finishes.
Cross-process (the mkdir-based lock at syscall granularity): in every
execution in which no process performs the stale-reclamation removal of
the lock directory — in particular whenever every contender reads a
written pid file whose recorded owner is alive — at most one live
process holds the lock at any instant.  Executions that do reclaim can
produce two simultaneous live holders (see the counterexample). -/
theorem deviceLock_mutual_exclusion_no_reclaim :
    (∀ (evs : List WEvent) (k : String), critCount (DeviceLocks.run evs) k ≤ 1) ∧
    (∀ evs : List REvent, evs.all (fun e => !isRmStale e) = true →
      holdingCount (DirLockSys.run evs) ≤ 1) := by
  constructor
  · intro evs k
    have hk := WInv_run evs k
    by_cases hbusy : lockBusy (DeviceLocks.run evs).locks k = true
    · rw [if_pos hbusy] at hk
      omega
    · rw [if_neg hbusy] at hk
      omega
  · intro evs hall
    have hinv := RInv_foldl evs { dir := .absent, procs := [] }
      (by simp [RInv, dirCount]) hall
    have hle : holdingCount (DirLockSys.run evs)
        ≤ (DirLockSys.run evs).procs.countP wpOrHolding := by
      apply countP_le_of_imp
      intro a _ ha
      rw [Bool.and_eq_true] at ha
      simp [wpOrHolding, ha.2]
    have hdc : dirCount (DirLockSys.run evs).dir ≤ 1 := by
      cases (DirLockSys.run evs).dir with
      | absent => simp [dirCount]
      | present pf => simp [dirCount]
    simp only [RInv] at hinv
    rw [DirLockSys.run] at hle hdc ⊢
    omega

theorem deviceLock_mutual_exclusion_no_reclaim_witness :
    critCount (DeviceLocks.run [WEvent.call 1 "emulator-5554", WEvent.poll 1,
      WEvent.call 2 "emulator-5554", WEvent.poll 2]) "emulator-5554" ≤ 1 ∧
    ([REvent.spawn 1, REvent.spawn 2, REvent.mkdirTry 1, REvent.mkdirTry 2,
      REvent.writeFilePid 1].all (fun e => !isRmStale e) = true) ∧
    holdingCount (DirLockSys.run [REvent.spawn 1, REvent.spawn 2, REvent.mkdirTry 1,
      REvent.mkdirTry 2, REvent.writeFilePid 1]) ≤ 1 :=
  ⟨deviceLock_mutual_exclusion_no_reclaim.1 _ _, by decide,
    deviceLock_mutual_exclusion_no_reclaim.2 _ (by decide)⟩

/-! ## The cross-process acquisition loop itself (run-android-test SKILL.md)

One acquiring process runs the polling loop against a fixed lock-directory
state (no interference).  The filesystem state of the lock is `none` (no
lock directory) or `some c` where `c` describes the pid file: `missing`
(readFileSync throws), `garbage` (contents that parseInt turns into NaN),
or `pid n`.  Time is advanced only by the sleep in the owner-alive
branch; the stale branches retry without sleeping. -/

inductive PidContent where
  | missing
  | garbage
  | pid (n : Nat)
  deriving Repr, DecidableEq

inductive AcquireResult where
  | acquired (fs : Option PidContent) (t : Nat)
  | timedOut (t : Nat)
  | outOfFuel
  deriving Repr, DecidableEq

/-- One waiter's acquisition loop.  Mirrors the while loop: check elapsed
time against the timeout; try mkdir (succeeds iff no lock directory) and
write the pid file; on EEXIST read the pid file: a read failure (missing
file) lands in the catch block and is treated as stale (remove, retry
immediately); a NaN pid skips the kill probe and is treated as a live
owner (sleep pollIntervalMs, retry); a parsed pid is probed with
kill(pid, 0): alive sleeps, dead lands in the catch block (stale). -/
def acquireLoop (alive : Nat → Bool) (startTime timeoutMs pollIntervalMs myPid : Nat) :
    Nat → Option PidContent → Nat → AcquireResult
  | 0, _, _ => .outOfFuel
  | fuel + 1, fs, now =>
    if timeoutMs ≤ now - startTime then .timedOut now
    else
      match fs with
      | none => .acquired (some (.pid myPid)) now
      | some .missing =>
        acquireLoop alive startTime timeoutMs pollIntervalMs myPid fuel none now
      | some .garbage =>
        acquireLoop alive startTime timeoutMs pollIntervalMs myPid fuel
          (some .garbage) (now + pollIntervalMs)
      | some (.pid q) =>
        if alive q then
          acquireLoop alive startTime timeoutMs pollIntervalMs myPid fuel
            (some (.pid q)) (now + pollIntervalMs)
        else
          acquireLoop alive startTime timeoutMs pollIntervalMs myPid fuel none now

/-- releaseLock: a no-op when the lock was not acquired by this caller;
otherwise remove the lock directory (whatever it now contains) and clear
the flag. -/
def releaseLock (lockAcquired : Bool) (fs : Option PidContent) : Bool × Option PidContent :=
  if lockAcquired then (false, none) else (lockAcquired, fs)

/-- C6: against a lock held by a live owner that never releases, the
acquisition loop fails at a time at or after startTime + timeoutMs (and
the failure is the timeout exit, the only failure the loop has), given
enough fuel for the timeout check to be reached. -/
theorem deviceLock_timeout_live_owner (alive : Nat → Bool)
    (startTime timeoutMs pollIntervalMs myPid q : Nat) (f : Nat) :
    ∀ now : Nat, alive q = true → startTime ≤ now →
    timeoutMs ≤ (now - startTime) + f * pollIntervalMs →
    ∃ t, acquireLoop alive startTime timeoutMs pollIntervalMs myPid (f + 1)
        (some (.pid q)) now = .timedOut t ∧ startTime + timeoutMs ≤ t := by
  induction f with
  | zero =>
    intro now hlive hsn hf
    have hcond : timeoutMs ≤ now - startTime := by simpa using hf
    refine ⟨now, ?_, by omega⟩
    simp [acquireLoop, hcond]
  | succ f ih =>
    intro now hlive hsn hf
    by_cases hcond : timeoutMs ≤ now - startTime
    · refine ⟨now, ?_, by omega⟩
      simp [acquireLoop, hcond]
    · have hmul : (f + 1) * pollIntervalMs = f * pollIntervalMs + pollIntervalMs :=
        Nat.succ_mul f pollIntervalMs
      obtain ⟨t, ht, hge⟩ := ih (now + pollIntervalMs) hlive (by omega) (by omega)
      refine ⟨t, ?_, hge⟩
      rw [acquireLoop, if_neg hcond]
      simp only [hlive, if_true]
      exact ht

theorem deviceLock_timeout_live_owner_witness :
    ∃ t, acquireLoop (fun _ => true) 0 30000 1000 42 (30 + 1)
        (some (.pid 7)) 0 = .timedOut t ∧ 0 + 30000 ≤ t :=
  deviceLock_timeout_live_owner (fun _ => true) 0 30000 1000 42 7 30 0
    rfl (by decide) (by decide)

/-- C5 (divergence of the code from the claim): with the lock directory
present, the behaviour of one acquire depends on the pid-file content.
An absent pid file or a dead recorded owner is treated as stale and the
lock is acquired immediately (time 0, no sleep, no timeout wait); but an
unparseable pid file (parseInt gives NaN) skips the kill probe, is
treated as a live owner, and the loop sleeps every poll interval until it
fails with the timeout — the claim (and the catch-block comment in the
source) say it should be reclaimed as stale immediately. -/
theorem deviceLock_stale_unparseable_divergence :
    acquireLoop (fun _ => true) 0 3000 1000 42 10 (some .garbage) 0
      = .timedOut 3000 ∧
    acquireLoop (fun _ => true) 0 3000 1000 42 10 (some .missing) 0
      = .acquired (some (.pid 42)) 0 ∧
    acquireLoop (fun _ => false) 0 3000 1000 42 10 (some (.pid 7)) 0
      = .acquired (some (.pid 42)) 0 := by
  decide

/-- C7: release removes the lock resource without re-verifying that the
caller is still the recorded owner: whatever the lock directory now
records — including a new holder's pid after a stale reclamation — a
caller that once acquired (lockAcquired = true) deletes it. -/
theorem deviceLock_release_unconditional (c : PidContent) :
    releaseLock true (some c) = (false, none) := rfl

end PistachioMCP
